import Mathlib

/-!
Verification of the drug-diffusion simulator's concentration-profile
evaluator (`calcProfile` in `src/DrugDiffusionSimulator.jsx`) and of the
animation driver's time step, over a real-number shallow embedding.

The source computes, for `i = 0 .. 80`, the depth `x = (i / 80) * thickness`
and the truncated cosine-series concentration
`c = C0 * (1 - (4/π) * Σ_{n<20} (1/(2n+1)) · exp(-D((2n+1)π/(2L))²t) · cos((2n+1)πx/(2L)))`,
and pushes the record `{ x: x * 1e6, concentration: c }` (depth converted to
microns).  The animation effect advances time by
`prev >= maxTime ? 0 : prev + 5` (with `maxTime = 3600`) every tick.
-/

namespace DrugDiffusion

open Real Filter

/-- A chart data point as pushed by `calcProfile`: the field `x` is the depth
value stored in the record (the source stores `x * 1e6`, microns), and
`concentration` is the computed concentration. -/
structure DataPoint where
  x : ℝ
  concentration : ℝ

/-- `const points = 80` — the sampling loop runs `i = 0 .. points`. -/
def points : ℕ := 80

/-- `const nTerms = 20` — series expansion terms. -/
def nTerms : ℕ := 20

/-- `const maxTime = 3600` — the animation horizon in simulated seconds. -/
def maxTime : ℝ := 3600

/-- The inner loop of `calcProfile`: starting from `seriesSum = 0`, for
`n = 0 .. nTerms-1` it adds
`(1/(2n+1)) * exp(-D*((2n+1)π/(2*thickness))^2*t) * cos((2n+1)*π*x/(2*thickness))`. -/
noncomputable def seriesSum (D thickness t x : ℝ) : ℝ :=
  (List.range nTerms).foldl
    (fun acc (n : ℕ) =>
      acc +
        1 / (2 * (n : ℝ) + 1) *
          Real.exp (-D * ((2 * (n : ℝ) + 1) * Real.pi / (2 * thickness)) ^ 2 * t) *
          Real.cos ((2 * (n : ℝ) + 1) * Real.pi * x / (2 * thickness)))
    0

/-- The concentration `calcProfile` computes at depth `x` (in meters):
`c = C0 * (1 - (4 / Math.PI) * seriesSum)`. -/
noncomputable def cAt (D thickness C0 t x : ℝ) : ℝ :=
  C0 * (1 - 4 / Real.pi * seriesSum D thickness t x)

/-- `calcProfile(t)`: for `i = 0 .. points`, push
`{ x: ((i/points)*thickness) * 1e6, concentration: cAt ... }` in index order. -/
noncomputable def calcProfile (D thickness C0 t : ℝ) : List DataPoint :=
  (List.range (points + 1)).map fun (i : ℕ) =>
    { x := (i : ℝ) / (points : ℝ) * thickness * 1e6
      concentration := cAt D thickness C0 t ((i : ℝ) / (points : ℝ) * thickness) }

/-- The `i`-th emitted sample (with a dummy default out of range). -/
noncomputable def sampleAt (D thickness C0 t : ℝ) (i : ℕ) : DataPoint :=
  (calcProfile D thickness C0 t).getD i ⟨0, 0⟩

/-- The animation `setInterval` body: `prev >= maxTime ? 0 : prev + 5`. -/
noncomputable def animStep (prev : ℝ) : ℝ :=
  if maxTime ≤ prev then 0 else prev + 5

/- ### Structural lemmas -/

lemma foldl_add_eq_sum (f : ℕ → ℝ) :
    ∀ (m : ℕ) (a : ℝ),
      (List.range m).foldl (fun acc n => acc + f n) a = a + ∑ n in Finset.range m, f n := by
  intro m
  induction m with
  | zero => intro a; simp
  | succ k ih =>
      intro a
      rw [List.range_succ, List.foldl_append, ih, Finset.sum_range_succ]
      simp [add_assoc]

lemma seriesSum_eq_sum (D thickness t x : ℝ) :
    seriesSum D thickness t x =
      ∑ n in Finset.range 20,
        1 / (2 * (n : ℝ) + 1) *
          Real.exp (-D * ((2 * (n : ℝ) + 1) * Real.pi / (2 * thickness)) ^ 2 * t) *
          Real.cos ((2 * (n : ℝ) + 1) * Real.pi * x / (2 * thickness)) := by
  rw [seriesSum, nTerms, foldl_add_eq_sum, zero_add]

lemma calcProfile_length (D thickness C0 t : ℝ) :
    (calcProfile D thickness C0 t).length = 81 := by
  simp [calcProfile, points]

lemma sampleAt_eq (D thickness C0 t : ℝ) {i : ℕ} (hi : i < 81) :
    sampleAt D thickness C0 t i =
      { x := (i : ℝ) / 80 * thickness * 1e6
        concentration := cAt D thickness C0 t ((i : ℝ) / 80 * thickness) } := by
  have h : i < (points + 1) := hi
  rw [sampleAt, calcProfile, List.getD_eq_getD_get?, List.get?_map, List.get?_range h]
  simp [points]

/- ### Claim theorems -/

/-- C10: the profile computation is total: for every numeric input whatsoever,
including out-of-domain values, `calcProfile` performs no validation, never
fails, and returns exactly 81 `{x, concentration}` records. -/
theorem calcProfile_total (D thickness C0 t : ℝ) :
    (calcProfile D thickness C0 t).length = 81 :=
  calcProfile_length D thickness C0 t

/-- C2 counterexample: with `D = -1` (a value the claim says must fail with
`InvalidParameter` on entry, before any computation), `calcProfile` does not
fail: it computes and returns the full 81-sample profile. -/
theorem calcProfile_no_validation_cex : (calcProfile (-1) 1 1 1).length = 81 :=
  calcProfile_length (-1) 1 1 1

/-- C2 amended: the evaluator performs no input validation and never fails:
even when `D ≤ 0`, `L ≤ 0`, `C0 < 0` or `t < 0`, it still computes and
returns a complete 81-sample profile (whose values may be physically
meaningless). -/
theorem calcProfile_no_validation (D thickness C0 t : ℝ)
    (h : D ≤ 0 ∨ thickness ≤ 0 ∨ C0 < 0 ∨ t < 0) :
    (calcProfile D thickness C0 t).length = 81 :=
  calcProfile_length D thickness C0 t

/-- Witness for `calcProfile_no_validation` at `thickness = -1 ≤ 0`. -/
theorem calcProfile_no_validation_witness :
    ((1 : ℝ) ≤ 0 ∨ (-1 : ℝ) ≤ 0 ∨ (1 : ℝ) < 0 ∨ (1 : ℝ) < 0) ∧
      (calcProfile 1 (-1) 1 1).length = 81 :=
  ⟨Or.inr (Or.inl (by norm_num)),
    calcProfile_no_validation 1 (-1) 1 1 (Or.inr (Or.inl (by norm_num)))⟩

/-- C9: the animation step adds exactly 5 simulated seconds per tick while
below the horizon, wraps to 0 once the horizon `maxTime = 3600` is reached,
and consequently every time value reachable from 0 stays in `[0, 3600]`. -/
theorem animStep_spec :
    (∀ p : ℝ, maxTime ≤ p → animStep p = 0) ∧
      (∀ p : ℝ, p < maxTime → animStep p = p + 5) ∧
      (∀ n : ℕ, 0 ≤ animStep^[n] 0 ∧ animStep^[n] 0 ≤ 3600) := by
  refine ⟨fun p hp => if_pos hp, fun p hp => if_neg (not_le.mpr hp), fun n => ?_⟩
  have key : ∀ m : ℕ, ∃ k : ℕ, animStep^[m] 0 = 5 * k ∧ 5 * (k : ℝ) ≤ 3600 := by
    intro m
    induction m with
    | zero => exact ⟨0, by simp, by norm_num⟩
    | succ j ih =>
        obtain ⟨k, hk, hk36⟩ := ih
        rw [Function.iterate_succ_apply', hk]
        by_cases hbig : maxTime ≤ 5 * (k : ℝ)
        · exact ⟨0, by rw [animStep, if_pos hbig]; norm_num, by norm_num⟩
        · refine ⟨k + 1, by rw [animStep, if_neg hbig]; push_cast; ring, ?_⟩
          have hlt : 5 * (k : ℝ) < 3600 := by
            simpa [maxTime] using not_le.mp hbig
          have : (k : ℝ) < 720 := by linarith
          have hk720 : k < 720 := by exact_mod_cast this
          have : (k : ℝ) + 1 ≤ 720 := by exact_mod_cast Nat.succ_le_of_lt hk720
          push_cast
          linarith
  obtain ⟨k, hk, hk36⟩ := key n
  refine ⟨hk ▸ by positivity, hk ▸ hk36⟩

/-- Witness for `animStep_spec`: at the horizon the step wraps to 0, and one
tick below it advances by exactly 5. -/
theorem animStep_spec_witness : animStep 3600 = 0 ∧ animStep 10 = 10 + 5 :=
  ⟨animStep_spec.1 3600 (by rw [maxTime]), animStep_spec.2.1 10 (by rw [maxTime]; norm_num)⟩

/-- C1: each concentration the evaluator emits at sample `i` (whose depth in
meters is `x_i = (i/80)·L`) equals the 20-term truncated cosine-series closed
form `C0 · (1 − (4/π) · Σ_{n<20} (1/(2n+1)) · e^{−D((2n+1)π/(2L))²t} · cos((2n+1)πx_i/(2L)))`. -/
theorem concentration_eq_series (D L C0 t : ℝ) (hD : 0 < D) (hL : 0 < L)
    (hC0 : 0 ≤ C0) (ht : 0 ≤ t) {i : ℕ} (hi : i < 81) :
    (sampleAt D L C0 t i).concentration =
      C0 * (1 - 4 / Real.pi * ∑ n in Finset.range 20,
        1 / (2 * (n : ℝ) + 1) *
          Real.exp (-D * ((2 * (n : ℝ) + 1) * Real.pi / (2 * L)) ^ 2 * t) *
          Real.cos ((2 * (n : ℝ) + 1) * Real.pi * ((i : ℝ) / 80 * L) / (2 * L))) := by
  rw [sampleAt_eq D L C0 t hi]
  simp only [cAt, seriesSum_eq_sum]

/-- Witness for `concentration_eq_series` at `D = L = C0 = 1`, `t = 0`, `i = 0`. -/
theorem concentration_eq_series_witness :
    (sampleAt 1 1 1 0 0).concentration =
      1 * (1 - 4 / Real.pi * ∑ n in Finset.range 20,
        1 / (2 * (n : ℝ) + 1) *
          Real.exp (-1 * ((2 * (n : ℝ) + 1) * Real.pi / (2 * 1)) ^ 2 * 0) *
          Real.cos ((2 * (n : ℝ) + 1) * Real.pi * (((0 : ℕ) : ℝ) / 80 * 1) / (2 * 1))) :=
  concentration_eq_series 1 1 1 0 (by norm_num) (by norm_num) (by norm_num)
    (by norm_num) (by norm_num)

/-- C3 counterexample: with `L = 1`, the last sample's stored depth value is
`1e6` (the source stores depth in microns, `x * 1e6`), which is not `≤ L`:
the claim `0 ≤ depth ≤ L` fails on the emitted records. -/
theorem depth_exceeds_L_cex : ¬ (sampleAt 1 1 1 0 80).x ≤ 1 := by
  rw [sampleAt_eq 1 1 1 0 (by norm_num)]
  norm_num

/-- C3 amended: every emitted depth value lies in `[0, L·1e6]` (depths are
stored in microns, `x_i·1e6`), and the samples span exactly `[0, L·1e6]`
with both endpoints included. -/
theorem depths_span_micron_range (D L C0 t : ℝ) (hD : 0 < D) (hL : 0 < L)
    (hC0 : 0 ≤ C0) (ht : 0 ≤ t) :
    (∀ p ∈ calcProfile D L C0 t, 0 ≤ p.x ∧ p.x ≤ L * 1e6) ∧
      (sampleAt D L C0 t 0).x = 0 ∧ (sampleAt D L C0 t 80).x = L * 1e6 := by
  refine ⟨?_, ?_, ?_⟩
  · intro p hp
    rw [calcProfile, List.mem_map] at hp
    obtain ⟨i, hi, rfl⟩ := hp
    rw [List.mem_range] at hi
    have hi80 : (i : ℝ) ≤ 80 := by exact_mod_cast Nat.lt_succ_iff.mp hi
    have h0 : (0 : ℝ) ≤ (i : ℝ) / (points : ℝ) * L * 1e6 := by
      refine mul_nonneg (mul_nonneg ?_ hL.le) (by norm_num)
      exact div_nonneg (Nat.cast_nonneg i) (Nat.cast_nonneg points)
    refine ⟨h0, ?_⟩
    rw [points]
    push_cast
    have hdiv : (i : ℝ) / 80 ≤ 1 := by
      rw [div_le_one (by norm_num : (0:ℝ) < 80)]
      exact hi80
    nlinarith
  · rw [sampleAt_eq D L C0 t (by norm_num)]
    norm_num
  · rw [sampleAt_eq D L C0 t (by norm_num)]
    push_cast
    ring

/-- Witness for `depths_span_micron_range`: at `D = L = C0 = 1`, `t = 0`, the
first emitted depth is `0`. -/
theorem depths_span_micron_range_witness : (sampleAt 1 1 1 0 0).x = 0 :=
  (depths_span_micron_range 1 1 1 0 (by norm_num) (by norm_num) (by norm_num)
    (by norm_num)).2.1

/-- C4 counterexample: with `L = 1`, sample `i = 1` has stored depth `12500`,
not the claimed `x_1 = (1/80)·L = 1/80`: emitted depths are `x_i·1e6`
(microns), not `x_i`. -/
theorem depth_not_xi_cex : (sampleAt 1 1 1 0 1).x ≠ (1 : ℝ) / 80 * 1 := by
  rw [sampleAt_eq 1 1 1 0 (by norm_num)]
  norm_num

/-- C4 amended: for valid inputs the evaluator returns exactly 81 samples,
emitted in index order with strictly increasing stored depths, the `i`-th
stored depth being `((i/80)·L)·1e6` (i.e. `x_i` scaled to microns). -/
theorem profile_depths_strictly_increasing (D L C0 t : ℝ) (hD : 0 < D)
    (hL : 0 < L) (hC0 : 0 ≤ C0) (ht : 0 ≤ t) :
    (calcProfile D L C0 t).length = 81 ∧
      (calcProfile D L C0 t).Pairwise (fun p q => p.x < q.x) ∧
      ∀ i : ℕ, i < 81 → (sampleAt D L C0 t i).x = (i : ℝ) / 80 * L * 1e6 := by
  refine ⟨calcProfile_length D L C0 t, ?_, fun i hi => by rw [sampleAt_eq D L C0 t hi]⟩
  rw [calcProfile, List.pairwise_map]
  refine (List.pairwise_lt_range _).imp ?_
  intro i j hij
  have hcast : (i : ℝ) < (j : ℝ) := by exact_mod_cast hij
  have h1 : (i : ℝ) / (points : ℝ) < (j : ℝ) / (points : ℝ) := by
    rw [points]
    push_cast
    exact (div_lt_div_right (by norm_num : (0:ℝ) < 80)).mpr hcast
  have h2 : (i : ℝ) / (points : ℝ) * L < (j : ℝ) / (points : ℝ) * L :=
    mul_lt_mul_of_pos_right h1 hL
  exact mul_lt_mul_of_pos_right h2 (by norm_num)

/-- Witness for `profile_depths_strictly_increasing`: at `D = L = C0 = 1`,
`t = 0`, the profile has 81 entries. -/
theorem profile_depths_strictly_increasing_witness :
    (calcProfile 1 1 1 0).length = 81 :=
  (profile_depths_strictly_increasing 1 1 1 0 (by norm_num) (by norm_num)
    (by norm_num) (by norm_num)).1

/- ### Bounds on the series -/

lemma term_abs_le (D thickness t : ℝ) (x : ℝ) (hD : 0 < D) (ht : 0 ≤ t) (n : ℕ) :
    |1 / (2 * (n : ℝ) + 1) *
        Real.exp (-D * ((2 * (n : ℝ) + 1) * Real.pi / (2 * thickness)) ^ 2 * t) *
        Real.cos ((2 * (n : ℝ) + 1) * Real.pi * x / (2 * thickness))| ≤ 1 := by
  rw [abs_mul, abs_mul]
  have h1 : |1 / (2 * (n : ℝ) + 1)| ≤ 1 := by
    rw [abs_of_nonneg (by positivity)]
    rw [div_le_one (by positivity)]
    have : (0 : ℝ) ≤ (n : ℝ) := Nat.cast_nonneg n
    linarith
  have h2 : |Real.exp (-D * ((2 * (n : ℝ) + 1) * Real.pi / (2 * thickness)) ^ 2 * t)| ≤ 1 := by
    rw [abs_of_nonneg (Real.exp_pos _).le, Real.exp_le_one_iff]
    have hsq : (0 : ℝ) ≤ ((2 * (n : ℝ) + 1) * Real.pi / (2 * thickness)) ^ 2 := sq_nonneg _
    nlinarith [mul_nonneg (mul_nonneg hD.le hsq) ht]
  have h3 : |Real.cos ((2 * (n : ℝ) + 1) * Real.pi * x / (2 * thickness))| ≤ 1 :=
    Real.abs_cos_le_one _
  have hnn1 : (0:ℝ) ≤ |1 / (2 * (n : ℝ) + 1)| := abs_nonneg _
  have hnn2 : (0:ℝ) ≤ |Real.exp (-D * ((2 * (n : ℝ) + 1) * Real.pi / (2 * thickness)) ^ 2 * t)| :=
    abs_nonneg _
  have hnn3 : (0:ℝ) ≤ |Real.cos ((2 * (n : ℝ) + 1) * Real.pi * x / (2 * thickness))| :=
    abs_nonneg _
  have hab : |1 / (2 * (n : ℝ) + 1)| *
      |Real.exp (-D * ((2 * (n : ℝ) + 1) * Real.pi / (2 * thickness)) ^ 2 * t)| ≤ 1 :=
    mul_le_one h1 hnn2 h2
  exact mul_le_one hab hnn3 h3

lemma abs_seriesSum_le (D thickness t x : ℝ) (hD : 0 < D) (ht : 0 ≤ t) :
    |seriesSum D thickness t x| ≤ 20 := by
  rw [seriesSum_eq_sum]
  calc |∑ n in Finset.range 20,
          1 / (2 * (n : ℝ) + 1) *
            Real.exp (-D * ((2 * (n : ℝ) + 1) * Real.pi / (2 * thickness)) ^ 2 * t) *
            Real.cos ((2 * (n : ℝ) + 1) * Real.pi * x / (2 * thickness))|
      ≤ ∑ n in Finset.range 20,
          |1 / (2 * (n : ℝ) + 1) *
            Real.exp (-D * ((2 * (n : ℝ) + 1) * Real.pi / (2 * thickness)) ^ 2 * t) *
            Real.cos ((2 * (n : ℝ) + 1) * Real.pi * x / (2 * thickness))| :=
        Finset.abs_sum_le_sum_abs _ _
    _ ≤ ∑ _n in Finset.range 20, (1 : ℝ) :=
        Finset.sum_le_sum fun n _ => term_abs_le D thickness t x hD ht n
    _ = 20 := by simp

/-- C5: for every valid input, every emitted value is a well-defined real
number within explicit finite bounds: depths lie in `[0, L·1e6]` and every
concentration has absolute value at most `C0·(1 + (4/π)·20)` (the exact-real
rendering of "never NaN and never Infinity"). -/
theorem profile_values_finite (D L C0 t : ℝ) (hD : 0 < D) (hL : 0 < L)
    (hC0 : 0 ≤ C0) (ht : 0 ≤ t) :
    ∀ p ∈ calcProfile D L C0 t,
      (0 ≤ p.x ∧ p.x ≤ L * 1e6) ∧
        |p.concentration| ≤ C0 * (1 + 4 / Real.pi * 20) := by
  intro p hp
  rw [calcProfile, List.mem_map] at hp
  obtain ⟨i, hi, rfl⟩ := hp
  rw [List.mem_range] at hi
  have hi80 : (i : ℝ) ≤ 80 := by exact_mod_cast Nat.lt_succ_iff.mp hi
  constructor
  · constructor
    · refine mul_nonneg (mul_nonneg ?_ hL.le) (by norm_num)
      exact div_nonneg (Nat.cast_nonneg i) (Nat.cast_nonneg points)
    · rw [points]
      push_cast
      have hdiv : (i : ℝ) / 80 ≤ 1 := by
        rw [div_le_one (by norm_num : (0:ℝ) < 80)]
        exact hi80
      nlinarith
  · rw [cAt, abs_mul, abs_of_nonneg hC0]
    refine mul_le_mul_of_nonneg_left ?_ hC0
    have hS : |seriesSum D L t ((i : ℝ) / (points : ℝ) * L)| ≤ 20 :=
      abs_seriesSum_le D L t _ hD ht
    have hpi : (0:ℝ) ≤ 4 / Real.pi := by positivity
    calc |1 - 4 / Real.pi * seriesSum D L t ((i : ℝ) / (points : ℝ) * L)|
        ≤ |(1:ℝ)| + |4 / Real.pi * seriesSum D L t ((i : ℝ) / (points : ℝ) * L)| :=
          abs_sub _ _
      _ = 1 + 4 / Real.pi * |seriesSum D L t ((i : ℝ) / (points : ℝ) * L)| := by
          rw [abs_one, abs_mul, abs_of_nonneg hpi]
      _ ≤ 1 + 4 / Real.pi * 20 := by nlinarith

/-- Witness for `profile_values_finite` at `D = L = C0 = 1`, `t = 0`, applied
to the head sample. -/
theorem profile_values_finite_witness :
    ((0:ℝ) ≤ (sampleAt 1 1 1 0 0).x ∧ (sampleAt 1 1 1 0 0).x ≤ 1 * 1e6) ∧
      |(sampleAt 1 1 1 0 0).concentration| ≤ 1 * (1 + 4 / Real.pi * 20) := by
  have hmem : sampleAt 1 1 1 0 0 ∈ calcProfile 1 1 1 0 := by
    rw [sampleAt_eq 1 1 1 0 (by norm_num), calcProfile]
    refine List.mem_map.mpr ⟨0, List.mem_range.mpr (by norm_num), ?_⟩
    simp [points]
  exact profile_values_finite 1 1 1 0 (by norm_num) (by norm_num) (by norm_num)
    (by norm_num) _ hmem

/-- C6 amended: at the surface depth `x = 0` (where every cosine factor is 1)
the computed concentration is monotonically non-decreasing in `t`; the claim's
universal version over all depths in `[0, L]` fails for the truncated series
(see the counterexample). -/
theorem surface_concentration_monotone (D L C0 : ℝ) (hD : 0 < D) (hL : 0 < L)
    (hC0 : 0 ≤ C0) (t1 t2 : ℝ) (ht1 : 0 ≤ t1) (h12 : t1 ≤ t2) :
    cAt D L C0 t1 0 ≤ cAt D L C0 t2 0 := by
  rw [cAt, cAt]
  apply mul_le_mul_of_nonneg_left _ hC0
  have hS : seriesSum D L t2 0 ≤ seriesSum D L t1 0 := by
    rw [seriesSum_eq_sum, seriesSum_eq_sum]
    refine Finset.sum_le_sum fun n _ => ?_
    have hcos : Real.cos ((2 * (n : ℝ) + 1) * Real.pi * 0 / (2 * L)) = 1 := by
      rw [mul_zero, zero_div, Real.cos_zero]
    rw [hcos, mul_one, mul_one]
    have hcoef : (0:ℝ) ≤ 1 / (2 * (n : ℝ) + 1) := by positivity
    refine mul_le_mul_of_nonneg_left ?_ hcoef
    apply Real.exp_le_exp.mpr
    have hsq : (0:ℝ) ≤ ((2 * (n : ℝ) + 1) * Real.pi / (2 * L)) ^ 2 := sq_nonneg _
    nlinarith [mul_le_mul_of_nonneg_left h12 (mul_nonneg hD.le hsq)]
  have hpi : (0:ℝ) ≤ 4 / Real.pi := by positivity
  nlinarith

/-- Witness for `surface_concentration_monotone` at `D = L = C0 = 1`,
`t1 = 0 ≤ t2 = 1`. -/
theorem surface_concentration_monotone_witness : cAt 1 1 1 0 0 ≤ cAt 1 1 1 1 0 :=
  surface_concentration_monotone 1 1 1 (by norm_num) (by norm_num) (by norm_num)
    0 1 (by norm_num) (by norm_num)

/-- C8 counterexample: at `D = L = C0 = t = 1`, the head sample's
concentration from `(4D, L, C0, t)` differs from the one from
`(D, L, C0, t/4)`: the two runs do not share the dimensionless group
`D·t/L²` (`4·1 ≠ 1/4`). -/
theorem scale_pairing_cex :
    (sampleAt 4 1 1 1 0).concentration ≠ (sampleAt 1 1 1 (1/4) 0).concentration := by
  rw [sampleAt_eq 4 1 1 1 (by norm_num), sampleAt_eq 1 1 1 (1/4) (by norm_num)]
  have hx : ((0:ℕ) : ℝ) / 80 * 1 = 0 := by norm_num
  rw [hx]
  rw [cAt, cAt]
  have hlt : seriesSum 4 1 1 0 < seriesSum 1 1 (1/4) 0 := by
    rw [seriesSum_eq_sum, seriesSum_eq_sum]
    refine Finset.sum_lt_sum_of_nonempty ⟨0, Finset.mem_range.mpr (by norm_num)⟩
      fun n _ => ?_
    have hcos : Real.cos ((2 * (n : ℝ) + 1) * Real.pi * 0 / (2 * 1)) = 1 := by
      rw [mul_zero, zero_div, Real.cos_zero]
    rw [hcos]
    simp only [mul_one]
    have hcoef : (0:ℝ) < 1 / (2 * (n : ℝ) + 1) := by positivity
    refine mul_lt_mul_of_pos_left ?_ hcoef
    apply Real.exp_lt_exp.mpr
    have hsq : (0:ℝ) < ((2 * (n : ℝ) + 1) * Real.pi / (2 * 1)) ^ 2 := by positivity
    nlinarith
  have hpi : (0:ℝ) < 4 / Real.pi := by positivity
  have := mul_lt_mul_of_pos_left hlt hpi
  intro hEq
  have h1 : (1:ℝ) * (1 - 4 / Real.pi * seriesSum 4 1 1 0) =
      1 - 4 / Real.pi * seriesSum 4 1 1 0 := one_mul _
  nlinarith [hEq]

/-- C8 amended: quadrupling `D` while quartering `t` leaves the profile
unchanged (the governing dimensionless group is `D·t/L²`):
`evaluateProfile(4D, L, C0, t/4)` equals `evaluateProfile(D, L, C0, t)`
exactly, sample by sample. -/
theorem scale_invariance (D L C0 t : ℝ) (hD : 0 < D) (hL : 0 < L)
    (hC0 : 0 ≤ C0) (ht : 0 ≤ t) :
    calcProfile (4 * D) L C0 (t / 4) = calcProfile D L C0 t := by
  have hcAt : ∀ x : ℝ, cAt (4 * D) L C0 (t / 4) x = cAt D L C0 t x := by
    intro x
    rw [cAt, cAt, seriesSum_eq_sum, seriesSum_eq_sum]
    refine congrArg _ (congrArg _ (congrArg _ (Finset.sum_congr rfl fun n _ => ?_)))
    rw [show -(4 * D) * ((2 * (n : ℝ) + 1) * Real.pi / (2 * L)) ^ 2 * (t / 4) =
        -D * ((2 * (n : ℝ) + 1) * Real.pi / (2 * L)) ^ 2 * t from by ring]
  rw [calcProfile, calcProfile]
  exact List.map_congr_left fun i _ => by rw [hcAt]

/-- Witness for `scale_invariance` at `D = L = C0 = t = 1`. -/
theorem scale_invariance_witness : calcProfile (4 * 1) 1 1 (1 / 4) = calcProfile 1 1 1 1 :=
  scale_invariance 1 1 1 1 (by norm_num) (by norm_num) (by norm_num) (by norm_num)

/- ### Steady state -/

lemma abs_seriesSum_le_decay (D thickness t x : ℝ) (hD : 0 < D) (hL : 0 < thickness)
    (ht : 0 ≤ t) :
    |seriesSum D thickness t x| ≤
      20 * Real.exp (-(D * (Real.pi / (2 * thickness)) ^ 2) * t) := by
  rw [seriesSum_eq_sum]
  have hterm : ∀ n : ℕ, n ∈ Finset.range 20 →
      |1 / (2 * (n : ℝ) + 1) *
          Real.exp (-D * ((2 * (n : ℝ) + 1) * Real.pi / (2 * thickness)) ^ 2 * t) *
          Real.cos ((2 * (n : ℝ) + 1) * Real.pi * x / (2 * thickness))| ≤
        Real.exp (-(D * (Real.pi / (2 * thickness)) ^ 2) * t) := by
    intro n _
    rw [abs_mul, abs_mul]
    have h1 : |1 / (2 * (n : ℝ) + 1)| ≤ 1 := by
      rw [abs_of_nonneg (by positivity), div_le_one (by positivity)]
      have : (0 : ℝ) ≤ (n : ℝ) := Nat.cast_nonneg n
      linarith
    have h3 : |Real.cos ((2 * (n : ℝ) + 1) * Real.pi * x / (2 * thickness))| ≤ 1 :=
      Real.abs_cos_le_one _
    have h2 : |Real.exp (-D * ((2 * (n : ℝ) + 1) * Real.pi / (2 * thickness)) ^ 2 * t)| ≤
        Real.exp (-(D * (Real.pi / (2 * thickness)) ^ 2) * t) := by
      rw [abs_of_nonneg (Real.exp_pos _).le]
      apply Real.exp_le_exp.mpr
      have hexpand : ((2 * (n : ℝ) + 1) * Real.pi / (2 * thickness)) ^ 2 =
          (2 * (n : ℝ) + 1) ^ 2 * (Real.pi / (2 * thickness)) ^ 2 := by
        rw [mul_div_assoc, mul_pow]
      rw [hexpand]
      have hone : (1 : ℝ) ≤ (2 * (n : ℝ) + 1) ^ 2 := by
        have : (0 : ℝ) ≤ (n : ℝ) := Nat.cast_nonneg n
        nlinarith
      have hsq : (0 : ℝ) ≤ (Real.pi / (2 * thickness)) ^ 2 := sq_nonneg _
      nlinarith [mul_nonneg (mul_nonneg hD.le hsq) ht,
        mul_le_mul_of_nonneg_left hone (mul_nonneg (mul_nonneg hD.le hsq) ht)]
    have hnn2 : (0:ℝ) ≤ |Real.exp (-D * ((2 * (n : ℝ) + 1) * Real.pi / (2 * thickness)) ^ 2 * t)| :=
      abs_nonneg _
    have hnn3 : (0:ℝ) ≤ |Real.cos ((2 * (n : ℝ) + 1) * Real.pi * x / (2 * thickness))| :=
      abs_nonneg _
    calc |1 / (2 * (n : ℝ) + 1)| *
          |Real.exp (-D * ((2 * (n : ℝ) + 1) * Real.pi / (2 * thickness)) ^ 2 * t)| *
          |Real.cos ((2 * (n : ℝ) + 1) * Real.pi * x / (2 * thickness))|
        ≤ 1 * Real.exp (-(D * (Real.pi / (2 * thickness)) ^ 2) * t) * 1 :=
          mul_le_mul (mul_le_mul h1 h2 hnn2 (by norm_num)) h3 hnn3 (by positivity)
      _ = Real.exp (-(D * (Real.pi / (2 * thickness)) ^ 2) * t) := by ring
  calc |∑ n in Finset.range 20,
          1 / (2 * (n : ℝ) + 1) *
            Real.exp (-D * ((2 * (n : ℝ) + 1) * Real.pi / (2 * thickness)) ^ 2 * t) *
            Real.cos ((2 * (n : ℝ) + 1) * Real.pi * x / (2 * thickness))|
      ≤ ∑ n in Finset.range 20,
          |1 / (2 * (n : ℝ) + 1) *
            Real.exp (-D * ((2 * (n : ℝ) + 1) * Real.pi / (2 * thickness)) ^ 2 * t) *
            Real.cos ((2 * (n : ℝ) + 1) * Real.pi * x / (2 * thickness))| :=
        Finset.abs_sum_le_sum_abs _ _
    _ ≤ ∑ _n in Finset.range 20, Real.exp (-(D * (Real.pi / (2 * thickness)) ^ 2) * t) :=
        Finset.sum_le_sum hterm
    _ = 20 * Real.exp (-(D * (Real.pi / (2 * thickness)) ^ 2) * t) := by
        rw [Finset.sum_const, Finset.card_range]
        push_cast
        ring

lemma cAt_dist_le (D thickness C0 t x : ℝ) (hD : 0 < D) (hL : 0 < thickness)
    (hC0 : 0 ≤ C0) (ht : 0 ≤ t) :
    |cAt D thickness C0 t x - C0| ≤
      C0 * (4 / Real.pi) * 20 * Real.exp (-(D * (Real.pi / (2 * thickness)) ^ 2) * t) := by
  have hkey : cAt D thickness C0 t x - C0 =
      -(C0 * (4 / Real.pi) * seriesSum D thickness t x) := by
    rw [cAt]; ring
  rw [hkey, abs_neg, abs_mul, abs_mul]
  have hpi : (0:ℝ) ≤ 4 / Real.pi := by positivity
  rw [abs_of_nonneg hC0, abs_of_nonneg hpi]
  have hS := abs_seriesSum_le_decay D thickness t x hD hL ht
  have hfac : (0:ℝ) ≤ C0 * (4 / Real.pi) := mul_nonneg hC0 hpi
  calc C0 * (4 / Real.pi) * |seriesSum D thickness t x|
      ≤ C0 * (4 / Real.pi) * (20 * Real.exp (-(D * (Real.pi / (2 * thickness)) ^ 2) * t)) :=
        mul_le_mul_of_nonneg_left hS hfac
    _ = C0 * (4 / Real.pi) * 20 * Real.exp (-(D * (Real.pi / (2 * thickness)) ^ 2) * t) := by
        ring

lemma decay_tendsto_zero (D thickness K : ℝ) (hD : 0 < D) (hL : 0 < thickness) :
    Tendsto (fun t : ℝ => K * Real.exp (-(D * (Real.pi / (2 * thickness)) ^ 2) * t))
      atTop (nhds 0) := by
  have ha : 0 < D * (Real.pi / (2 * thickness)) ^ 2 := by
    have := Real.pi_pos
    positivity
  have h1 : Tendsto (fun t : ℝ => -(D * (Real.pi / (2 * thickness)) ^ 2) * t) atTop atBot := by
    have h2 : Tendsto (fun t : ℝ => D * (Real.pi / (2 * thickness)) ^ 2 * t) atTop atTop :=
      Tendsto.const_mul_atTop ha tendsto_id
    have h3 := tendsto_neg_atTop_atBot.comp h2
    refine h3.congr fun t => ?_
    simp [neg_mul]
  have h4 : Tendsto (fun t : ℝ => Real.exp (-(D * (Real.pi / (2 * thickness)) ^ 2) * t))
      atTop (nhds 0) := Real.tendsto_exp_atBot.comp h1
  have h5 := h4.const_mul K
  simpa using h5

/-- C7: for every valid `(D, L, C0)`, the concentration at every sampled depth
tends to `C0` as `t → ∞`, and the convergence is uniform across the samples:
a single bound `C0·(4/π)·20·e^{−D(π/(2L))²t}`, independent of the sample index,
dominates every sample's distance to `C0` and itself tends to 0. -/
theorem steady_state_convergence (D L C0 : ℝ) (hD : 0 < D) (hL : 0 < L) (hC0 : 0 ≤ C0) :
    (∀ i : ℕ, i < 81 →
        Tendsto (fun t => (sampleAt D L C0 t i).concentration) atTop (nhds C0)) ∧
      (∀ t : ℝ, 0 ≤ t → ∀ i : ℕ, i < 81 →
        |(sampleAt D L C0 t i).concentration - C0| ≤
          C0 * (4 / Real.pi) * 20 * Real.exp (-(D * (Real.pi / (2 * L)) ^ 2) * t)) ∧
      Tendsto (fun t : ℝ => C0 * (4 / Real.pi) * 20 *
        Real.exp (-(D * (Real.pi / (2 * L)) ^ 2) * t)) atTop (nhds 0) := by
  have hbound : ∀ t : ℝ, 0 ≤ t → ∀ i : ℕ, i < 81 →
      |(sampleAt D L C0 t i).concentration - C0| ≤
        C0 * (4 / Real.pi) * 20 * Real.exp (-(D * (Real.pi / (2 * L)) ^ 2) * t) := by
    intro t ht i hi
    rw [sampleAt_eq D L C0 t hi]
    exact cAt_dist_le D L C0 t _ hD hL hC0 ht
  refine ⟨?_, hbound, decay_tendsto_zero D L _ hD hL⟩
  intro i hi
  rw [← tendsto_sub_nhds_zero_iff]
  refine squeeze_zero_norm' ?_ (decay_tendsto_zero D L (C0 * (4 / Real.pi) * 20) hD hL)
  filter_upwards [eventually_ge_atTop (0:ℝ)] with t ht
  rw [Real.norm_eq_abs]
  exact hbound t ht i hi

/-- Witness for `steady_state_convergence` at `D = L = C0 = 1`: the head
sample's concentration tends to 1. -/
theorem steady_state_convergence_witness :
    Tendsto (fun t => (sampleAt 1 1 1 t 0).concentration) atTop (nhds 1) :=
  (steady_state_convergence 1 1 1 (by norm_num) (by norm_num) (by norm_num)).1 0
    (by norm_num)

/- ### Non-monotonicity of the truncated series in t -/

lemma exp_neg_le_inv (q : ℝ) (hq : 0 ≤ q) : Real.exp (-q) ≤ 1 / (1 + q) := by
  rw [Real.exp_neg, one_div]
  exact inv_le_inv_of_le (by linarith) (by linarith [Real.add_one_le_exp q])

lemma exp_ub_nine_fifths : Real.exp (-(9/5 : ℝ)) ≤ 6553600000000 / 33232930569601 := by
  have h8 : (-(9/5) : ℝ) = (8 : ℕ) * (-(9/40)) := by norm_num
  rw [h8, Real.exp_nat_mul]
  have h1 : Real.exp (-(9/40 : ℝ)) ≤ 40 / 49 := by
    have h := exp_neg_le_inv (9/40) (by norm_num)
    calc Real.exp (-(9/40 : ℝ)) ≤ 1 / (1 + 9/40) := h
      _ = 40 / 49 := by norm_num
  calc Real.exp (-(9/40 : ℝ)) ^ 8 ≤ (40 / 49 : ℝ) ^ 8 :=
        pow_le_pow_left (Real.exp_pos _).le h1 8
    _ = 6553600000000 / 33232930569601 := by norm_num

lemma exp_lb_one_fifth : (130321 / 160000 : ℝ) ≤ Real.exp (-(1/5 : ℝ)) := by
  have h4 : (-(1/5) : ℝ) = (4 : ℕ) * (-(1/20)) := by norm_num
  rw [h4, Real.exp_nat_mul]
  have h1 : (19/20 : ℝ) ≤ Real.exp (-(1/20 : ℝ)) := by
    have h := Real.add_one_le_exp (-(1/20) : ℝ)
    linarith
  calc (130321 / 160000 : ℝ) = (19/20 : ℝ) ^ 4 := by norm_num
    _ ≤ Real.exp (-(1/20 : ℝ)) ^ 4 := pow_le_pow_left (by norm_num) h1 4

lemma cos_odd_pi_div_three (n : ℕ) :
    Real.cos ((2 * (n : ℝ) + 1) * Real.pi / 3) =
      if n % 3 = 1 then (-1 : ℝ) else 1 / 2 := by
  obtain ⟨q, r, hr, rfl⟩ : ∃ q r, r < 3 ∧ n = 3 * q + r :=
    ⟨n / 3, n % 3, Nat.mod_lt _ (by norm_num), by rw [Nat.div_add_mod]⟩
  have hmod : (3 * q + r) % 3 = r % 3 := by
    rw [Nat.add_comm, Nat.add_mul_mod_self_left]
  interval_cases r
  · have harg : (2 * ((3 * q + 0 : ℕ) : ℝ) + 1) * Real.pi / 3 =
        Real.pi / 3 + (q : ℕ) * (2 * Real.pi) := by push_cast; ring
    rw [harg, Real.cos_add_nat_mul_two_pi, Real.cos_pi_div_three, hmod]
    norm_num
  · have harg : (2 * ((3 * q + 1 : ℕ) : ℝ) + 1) * Real.pi / 3 =
        Real.pi + (q : ℕ) * (2 * Real.pi) := by push_cast; ring
    rw [harg, Real.cos_add_nat_mul_two_pi, Real.cos_pi, hmod]
    norm_num
  · have harg : (2 * ((3 * q + 2 : ℕ) : ℝ) + 1) * Real.pi / 3 =
        -(Real.pi / 3) + ((q + 1 : ℕ) : ℝ) * (2 * Real.pi) := by push_cast; ring
    rw [harg, Real.cos_add_nat_mul_two_pi, Real.cos_neg, Real.cos_pi_div_three, hmod]
    norm_num

lemma seriesSum_cex_eval (t : ℝ) :
    seriesSum 4 Real.pi t (2 * Real.pi / 3) =
      ∑ n in Finset.range 20,
        1 / (2 * (n : ℝ) + 1) * Real.exp (-((2 * (n : ℝ) + 1) ^ 2 * t)) *
          (if n % 3 = 1 then (-1 : ℝ) else 1 / 2) := by
  rw [seriesSum_eq_sum]
  refine Finset.sum_congr rfl fun n _ => ?_
  have hπ : Real.pi ≠ 0 := Real.pi_ne_zero
  have harg1 : -4 * ((2 * (n : ℝ) + 1) * Real.pi / (2 * Real.pi)) ^ 2 * t =
      -((2 * (n : ℝ) + 1) ^ 2 * t) := by
    have hhalf : (2 * (n : ℝ) + 1) * Real.pi / (2 * Real.pi) = (2 * (n : ℝ) + 1) / 2 := by
      field_simp
      ring
    rw [hhalf]
    ring
  have harg2 : (2 * (n : ℝ) + 1) * Real.pi * (2 * Real.pi / 3) / (2 * Real.pi) =
      (2 * (n : ℝ) + 1) * Real.pi / 3 := by
    field_simp
    ring
  rw [harg1, harg2, cos_odd_pi_div_three]

lemma seriesSum_cex_lt :
    seriesSum 4 Real.pi 0 (2 * Real.pi / 3) < seriesSum 4 Real.pi (1/5) (2 * Real.pi / 3) := by
  rw [seriesSum_cex_eval, seriesSum_cex_eval]
  have hub95 := exp_ub_nine_fifths
  have hlb15 := exp_lb_one_fifth
  have hub4 : Real.exp (-(81/5 : ℝ)) ≤ 5 / 86 := by
    have h := exp_neg_le_inv (81/5) (by norm_num)
    calc Real.exp (-(81/5 : ℝ)) ≤ 1 / (1 + 81/5) := h
      _ = 5 / 86 := by norm_num
  have hub7 : Real.exp (-(45 : ℝ)) ≤ 1 / 46 := by
    have h := exp_neg_le_inv 45 (by norm_num)
    calc Real.exp (-(45 : ℝ)) ≤ 1 / (1 + 45) := h
      _ = 1 / 46 := by norm_num
  have hub10 : Real.exp (-(441/5 : ℝ)) ≤ 5 / 446 := by
    have h := exp_neg_le_inv (441/5) (by norm_num)
    calc Real.exp (-(441/5 : ℝ)) ≤ 1 / (1 + 441/5) := h
      _ = 5 / 446 := by norm_num
  have hub13 : Real.exp (-(729/5 : ℝ)) ≤ 5 / 734 := by
    have h := exp_neg_le_inv (729/5) (by norm_num)
    calc Real.exp (-(729/5 : ℝ)) ≤ 1 / (1 + 729/5) := h
      _ = 5 / 734 := by norm_num
  have hub16 : Real.exp (-(1089/5 : ℝ)) ≤ 5 / 1094 := by
    have h := exp_neg_le_inv (1089/5) (by norm_num)
    calc Real.exp (-(1089/5 : ℝ)) ≤ 1 / (1 + 1089/5) := h
      _ = 5 / 1094 := by norm_num
  have hub19 : Real.exp (-(1521/5 : ℝ)) ≤ 5 / 1526 := by
    have h := exp_neg_le_inv (1521/5) (by norm_num)
    calc Real.exp (-(1521/5 : ℝ)) ≤ 1 / (1 + 1521/5) := h
      _ = 5 / 1526 := by norm_num
  have hp2 : (0:ℝ) < Real.exp (-(5 : ℝ)) := Real.exp_pos _
  have hp3 : (0:ℝ) < Real.exp (-(49/5 : ℝ)) := Real.exp_pos _
  have hp5 : (0:ℝ) < Real.exp (-(121/5 : ℝ)) := Real.exp_pos _
  have hp6 : (0:ℝ) < Real.exp (-(169/5 : ℝ)) := Real.exp_pos _
  have hp8 : (0:ℝ) < Real.exp (-(289/5 : ℝ)) := Real.exp_pos _
  have hp9 : (0:ℝ) < Real.exp (-(361/5 : ℝ)) := Real.exp_pos _
  have hp11 : (0:ℝ) < Real.exp (-(529/5 : ℝ)) := Real.exp_pos _
  have hp12 : (0:ℝ) < Real.exp (-(125 : ℝ)) := Real.exp_pos _
  have hp14 : (0:ℝ) < Real.exp (-(841/5 : ℝ)) := Real.exp_pos _
  have hp15 : (0:ℝ) < Real.exp (-(961/5 : ℝ)) := Real.exp_pos _
  have hp17 : (0:ℝ) < Real.exp (-(245 : ℝ)) := Real.exp_pos _
  have hp18 : (0:ℝ) < Real.exp (-(1369/5 : ℝ)) := Real.exp_pos _
  simp only [Finset.sum_range_succ, Finset.sum_range_zero]
  norm_num [Real.exp_zero]
  linarith

/-- C6 counterexample: at `D = 4`, `L = π`, `C0 = 1` and the fixed depth
`x = 2L/3 = 2π/3 ∈ [0, L]`, the computed concentration strictly decreases
between `t1 = 0` and `t2 = 1/5`: the truncated 20-term series is not
monotonically non-decreasing in `t` at every depth. -/
theorem concentration_not_monotone_cex :
    cAt 4 Real.pi 1 (1/5) (2 * Real.pi / 3) < cAt 4 Real.pi 1 0 (2 * Real.pi / 3) := by
  rw [cAt, cAt]
  have h := seriesSum_cex_lt
  have hpi : (0:ℝ) < 4 / Real.pi := by positivity
  have h2 := mul_lt_mul_of_pos_left h hpi
  nlinarith

end DrugDiffusion
